import Mathlib

/-!
Verification of the documentation-crawler core (`crawl_ultravox_docs.py`).

Strings are modelled as `List Char`. Python primitives used by the code
(`str.strip`, slicing `text[a:b]`, `str.rfind`, substring containment) are
embedded as executable Lean functions below. The float comparison
`k > chunk_size * 0.3` (integer `k`, `chunk_size`) is embedded as the exact
rational test `3 * chunk_size < 10 * k`; for integer operands in the range
relevant here the IEEE-double evaluation of `chunk_size * 0.3` agrees with the
exact value on every integer comparison, because `0.3`'s relative rounding
error (about 3.7e-17) never moves the product across an integer.
-/

/-- Whitespace stripped by Python `str.strip()` (ASCII part: space, tab,
newline, vertical tab, form feed, carriage return). -/
def pyIsSpace (c : Char) : Bool :=
  c == ' ' || c == '\t' || c == '\n' || c == '\x0b' || c == '\x0c' || c == '\r'

/-- Python `s.strip()`: drop whitespace from both ends. -/
def pyStrip (l : List Char) : List Char :=
  ((l.dropWhile pyIsSpace).reverse.dropWhile pyIsSpace).reverse

/-- Python slice `s[a:b]` for `0 ≤ a ≤ b` (out-of-range indices clamp). -/
def pySlice (l : List Char) (a b : Nat) : List Char :=
  (l.take b).drop a

/-- Executable list-prefix test. -/
def isPrefixOfCL : List Char → List Char → Bool
  | [], _ => true
  | _ :: _, [] => false
  | a :: as, b :: bs => a == b && isPrefixOfCL as bs

/-- Scan positions `i, i-1, ..., 0` for the rightmost occurrence of `pat`. -/
def rfindDown (pat l : List Char) : Nat → Option Nat
  | 0 => if isPrefixOfCL pat l then some 0 else none
  | i + 1 => if isPrefixOfCL pat (l.drop (i + 1)) then some (i + 1) else rfindDown pat l i

/-- Python `l.rfind(pat)` for non-empty `pat`: index of the rightmost
occurrence, `none` when absent (`-1` in Python). -/
def pyRFind (l pat : List Char) : Option Nat :=
  rfindDown pat l l.length

/-- The backquote character of a fenced-code delimiter. -/
def tick : Char := Char.ofNat 96

/-- The fenced-code-block delimiter searched by `chunk_text`. -/
def fenceL : List Char := [tick, tick, tick]

/-- The blank-line paragraph break searched by `chunk_text`. -/
def blankL : List Char := ['\n', '\n']

/-- The sentence-ending pattern searched by `chunk_text`. -/
def periodL : List Char := ['.', ' ']

/-- The `elif` chain of `chunk_text` (lines 52-59): paragraph break, then
sentence end, each applied only when its index exceeds 30% of `cs`. -/
def adjustRest (w : List Char) (cs start : Nat) : Nat :=
  match pyRFind w blankL with
  | some lb => if 3 * cs < 10 * lb then start + lb else start + cs
  | none =>
    match pyRFind w periodL with
    | some lp => if 3 * cs < 10 * lp then start + lp + 1 else start + cs
    | none => start + cs

/-- The code-fence branch of `chunk_text` (lines 49-51): when the window has a
fence past 30% of `cs`, cut before its last occurrence; otherwise fall through
to the `elif` chain. -/
def adjustFence (w : List Char) (cs start : Nat) : Nat :=
  match pyRFind w fenceL with
  | some cb => if 3 * cs < 10 * cb then start + cb else adjustRest w cs start
  | none => adjustRest w cs start

/-- Adjusted cut position for the window starting at `start` (lines 48-59). -/
def adjustEnd (text : List Char) (cs start : Nat) : Nat :=
  adjustFence (pySlice text start (start + cs)) cs start

/-- The `while` loop of `chunk_text` (lines 42-64), one recursive call per
iteration; `start` advances to `max (start+1) (adjustEnd ...)`. -/
def chunkLoop (text : List Char) (cs start : Nat) : List (List Char) :=
  if h : start < text.length then
    if text.length ≤ start + cs then
      [pyStrip (text.drop start)]
    else
      let e := adjustEnd text cs start
      let c := pyStrip (pySlice text start e)
      let rest := chunkLoop text cs (max (start + 1) e)
      if c = [] then rest else c :: rest
  else []
termination_by text.length - start
decreasing_by
  have hm : start + 1 ≤ max (start + 1) (adjustEnd text cs start) := le_max_left _ _
  omega

/-- The function `chunk_text(text, chunk_size)` (lines 36-66). -/
def chunkText (text : List Char) (cs : Nat) : List (List Char) :=
  chunkLoop text cs 0

/-- Fuel-indexed version of the `while` loop: `none` means the fuel was
exhausted before the loop exited. -/
def chunkLoopF : Nat → List Char → Nat → Nat → Option (List (List Char))
  | 0, _, _, _ => none
  | fuel + 1, text, cs, start =>
    if start < text.length then
      if text.length ≤ start + cs then
        some [pyStrip (text.drop start)]
      else
        let e := adjustEnd text cs start
        let c := pyStrip (pySlice text start e)
        match chunkLoopF fuel text cs (max (start + 1) e) with
        | none => none
        | some rest => some (if c = [] then rest else c :: rest)
    else some []

/-- The JSON key `title`. -/
def titleKey : List Char := ['t', 'i', 't', 'l', 'e']

/-- The JSON key `summary`. -/
def summaryKey : List Char := ['s', 'u', 'm', 'm', 'a', 'r', 'y']

/-- Sentinel `"Error processing title"` (line 88). -/
def sentinelTitle : List Char :=
  ['E', 'r', 'r', 'o', 'r', ' ', 'p', 'r', 'o', 'c', 'e', 's', 's', 'i', 'n', 'g',
   ' ', 't', 'i', 't', 'l', 'e']

/-- Sentinel `"Error processing summary"` (line 88). -/
def sentinelSummary : List Char :=
  ['E', 'r', 'r', 'o', 'r', ' ', 'p', 'r', 'o', 'c', 'e', 's', 's', 'i', 'n', 'g',
   ' ', 's', 'u', 'm', 'm', 'a', 'r', 'y']

/-- The fixed metadata source tag `"ultravox_docs"` (line 108). -/
def sourceTag : List Char :=
  ['u', 'l', 't', 'r', 'a', 'v', 'o', 'x', '_', 'd', 'o', 'c', 's']

/-- One behaviour of the external LLM provider on a title/summary call:
either the call raises (network error, provider error, or `json.loads`
raising on a malformed body — all land in the `except` of lines 86-88), or it
succeeds and `json.loads` yields a JSON object, modelled as its key/value
pairs (each key at most once). -/
inductive LLMResult where
  | fail : LLMResult
  | ok : List (List Char × List Char) → LLMResult
deriving DecidableEq

/-- One behaviour of the provider on an embedding call: raise, or return a
vector. Vector entries are opaque to the code; they are modelled as `Int`. -/
inductive EmbResult where
  | fail : EmbResult
  | ok : List Int → EmbResult
deriving DecidableEq

/-- Python dict lookup on the modelled JSON object. -/
def lookupKV : List (List Char × List Char) → List Char → Option (List Char)
  | [], _ => none
  | (k, v) :: rest, key => if k = key then some v else lookupKV rest key

/-- Function `get_title_and_summary` (lines 68-88): on provider failure return the
sentinel dict, otherwise return the parsed JSON object as-is (no key check).
The chunk and url only shape the prompt, never the returned value. -/
def get_title_and_summary (oracle : LLMResult) (chunk url : List Char) :
    List (List Char × List Char) :=
  match oracle, chunk, url with
  | .fail, _, _ => [(titleKey, sentinelTitle), (summaryKey, sentinelSummary)]
  | .ok fields, _, _ => fields

/-- Function `get_embedding` (lines 90-100): the provider's vector on success, the
1536-dimensional zero vector on failure. -/
def get_embedding (oracle : EmbResult) (text : List Char) : List Int :=
  match oracle, text with
  | .fail, _ => List.replicate 1536 0
  | .ok v, _ => v

/-- The one error `process_chunk` can raise: `KeyError` from
`extracted['title']` / `extracted['summary']` (lines 117-118). -/
inductive PyError where
  | keyError : PyError
deriving DecidableEq

/-- The locally synthesized metadata dict (lines 107-112); `crawled_at` and
`url_path` come from `datetime.now` and `urlparse`, passed in as `now` and
`path`. -/
structure Metadata where
  source : List Char
  chunk_size : Nat
  crawled_at : List Char
  url_path : List Char
deriving DecidableEq

/-- The `ProcessedChunk` dataclass (lines 26-34). -/
structure ProcessedChunk where
  url : List Char
  chunk_number : Nat
  title : List Char
  summary : List Char
  content : List Char
  metadata : Metadata
  embedding : List Int
deriving DecidableEq

/-- Function `process_chunk` (lines 102-122): call the title/summary extractor and the
embedder (neither raises), then read `extracted['title']` and
`extracted['summary']` — a missing key raises `KeyError` to the caller. -/
def process_chunk (ts : LLMResult) (emb : EmbResult) (now path : List Char)
    (chunk : List Char) (chunk_number : Nat) (url : List Char) :
    Except PyError ProcessedChunk :=
  let extracted := get_title_and_summary ts chunk url
  let embedding := get_embedding emb chunk
  match lookupKV extracted titleKey, lookupKV extracted summaryKey with
  | some t, some s =>
    .ok { url := url, chunk_number := chunk_number, title := t, summary := s,
          content := chunk,
          metadata := { source := sourceTag, chunk_size := chunk.length,
                        crawled_at := now, url_path := path },
          embedding := embedding }
  | _, _ => .error .keyError

/-- Model of `asyncio.gather` over the enrichment tasks (line 148): all results on
success, the first raised exception otherwise. -/
def gatherExcept : List (Except PyError ProcessedChunk) →
    Except PyError (List ProcessedChunk)
  | [] => .ok []
  | .error e :: _ => .error e
  | .ok pc :: rest =>
    match gatherExcept rest with
    | .error e => .error e
    | .ok pcs => .ok (pc :: pcs)

/-- Observable calls made by one `process_and_store_document` run:
the `(chunk, chunk_number)` arguments of every `process_chunk` task it
creates, and the arguments of every `insert_chunk` task. -/
structure PipelineTrace where
  enrichCalls : List (List Char × Nat)
  insertCalls : List ProcessedChunk
deriving DecidableEq

/-- Python `enumerate`, starting at `i`. -/
def pyEnumFrom (i : Nat) : List (List Char) → List (Nat × List Char)
  | [] => []
  | c :: rest => (i, c) :: pyEnumFrom (i + 1) rest

/-- Function `process_and_store_document` (lines 144-150): chunk with the default
`chunk_size = 5000`, enumerate, enrich every chunk (provider behaviour per
chunk index given by the oracles), then — only if no enrichment task raised —
insert every processed chunk. When `gather` re-raises, the insert phase never
runs (zero `insert_chunk` calls). -/
def process_and_store_document (tsO : Nat → LLMResult) (embO : Nat → EmbResult)
    (now path : List Char) (url markdown : List Char) : PipelineTrace :=
  let chunks := pyEnumFrom 0 (chunkText markdown 5000)
  let results := chunks.map
    (fun p => process_chunk (tsO p.1) (embO p.1) now path p.2 p.1 url)
  { enrichCalls := chunks.map (fun p => (p.2, p.1)),
    insertCalls :=
      match gatherExcept results with
      | .ok pcs => pcs
      | .error _ => [] }

/-- Interleaving `weave [w0, ..., wn] [c0, ..., c(n-1)] = w0 ++ c0 ++ w1 ++ ... ++ c(n-1) ++ wn`:
the chunks with the separator strings re-inserted between, before and after
them. -/
def weave : List (List Char) → List (List Char) → List Char
  | w :: ws, c :: cs => w ++ c ++ weave ws cs
  | w :: _, [] => w
  | [], _ => []

/-- A title/summary provider behaviour whose successful responses always carry
both the `title` and the `summary` key (failures allowed). -/
def goodTS : LLMResult → Bool
  | .fail => true
  | .ok fields => (lookupKV fields titleKey).isSome && (lookupKV fields summaryKey).isSome

/-- A provider that always succeeds with the empty JSON object `{}`. -/
def badTS : Nat → LLMResult := fun _ => .ok []

/-- Input of 15 characters whose first 10-character window has a paragraph break
at index 1 (at most 30% of 10) and a sentence end at index 6 (past 30%):
the text `a\n\nbcd. efghijk`. -/
def text15 : List Char :=
  ['a', '\n', '\n', 'b', 'c', 'd', '.', ' ', 'e', 'f', 'g', 'h', 'i', 'j', 'k']

/-- Input of 14 characters whose first 10-character window has no code fence, no
paragraph break and a sentence end at index 5 (past 30% of 10): the text
`Hello. World..`. -/
def textHello : List Char :=
  ['H', 'e', 'l', 'l', 'o', '.', ' ', 'W', 'o', 'r', 'l', 'd', '.', '.']

theorem isPrefixOfCL_length : ∀ p l : List Char, isPrefixOfCL p l = true → p.length ≤ l.length
  | [], _, _ => Nat.zero_le _
  | _ :: _, [], h => by simp [isPrefixOfCL] at h
  | a :: as, b :: bs, h => by
    simp only [isPrefixOfCL, Bool.and_eq_true] at h
    simpa [Nat.succ_le_succ_iff] using isPrefixOfCL_length as bs h.2

theorem rfindDown_some {pat l : List Char} :
    ∀ i j, rfindDown pat l i = some j → j ≤ i ∧ isPrefixOfCL pat (l.drop j) = true := by
  intro i
  induction i with
  | zero =>
    intro j h
    simp only [rfindDown] at h
    split at h
    · cases h
      refine ⟨Nat.le_refl _, ?_⟩
      simpa using (by assumption : isPrefixOfCL pat l = true)
    · cases h
  | succ i ih =>
    intro j h
    simp only [rfindDown] at h
    split at h
    · cases h
      exact ⟨Nat.le_refl _, by assumption⟩
    · rcases ih j h with ⟨h1, h2⟩
      exact ⟨Nat.le_trans h1 (Nat.le_succ _), h2⟩

theorem pyRFind_some {l pat : List Char} {j : Nat} (h : pyRFind l pat = some j) :
    j + pat.length ≤ l.length := by
  rcases rfindDown_some l.length j h with ⟨h1, h2⟩
  have h3 := isPrefixOfCL_length _ _ h2
  simp [List.length_drop] at h3
  omega

theorem adjustRest_ge (w : List Char) (cs start : Nat) (hcs : 0 < cs) :
    start + 1 ≤ adjustRest w cs start := by
  unfold adjustRest
  split
  · split <;> omega
  · split
    · split <;> omega
    · omega

theorem adjustEnd_ge (text : List Char) (cs start : Nat) (hcs : 0 < cs) :
    start + 1 ≤ adjustEnd text cs start := by
  unfold adjustEnd adjustFence
  split
  · split
    · omega
    · exact adjustRest_ge _ _ _ hcs
  · exact adjustRest_ge _ _ _ hcs

theorem adjustRest_le (w : List Char) (cs start : Nat) (hw : w.length ≤ cs) :
    adjustRest w cs start ≤ start + cs := by
  unfold adjustRest
  split
  case _ lb hlb =>
    have := pyRFind_some hlb
    simp [blankL] at this
    split <;> omega
  case _ hnb =>
    split
    case _ lp hlp =>
      have := pyRFind_some hlp
      simp [periodL] at this
      split <;> omega
    case _ => omega

theorem pySlice_length_le (l : List Char) (a b : Nat) :
    (pySlice l a b).length ≤ b - a := by
  simp [pySlice, List.length_drop, List.length_take]
  omega

theorem adjustEnd_le (text : List Char) (cs start : Nat) :
    adjustEnd text cs start ≤ start + cs := by
  have hw : (pySlice text start (start + cs)).length ≤ cs := by
    have := pySlice_length_le text start (start + cs)
    omega
  unfold adjustEnd adjustFence
  split
  case _ cb hcb =>
    have := pyRFind_some hcb
    simp [fenceL] at this
    split
    · omega
    · exact adjustRest_le _ _ _ hw
  case _ => exact adjustRest_le _ _ _ hw

theorem chunkLoop_done (text : List Char) (cs start : Nat) (h : text.length ≤ start) :
    chunkLoop text cs start = [] := by
  rw [chunkLoop]
  rw [dif_neg (by omega)]

theorem chunkLoop_tail (text : List Char) (cs start : Nat)
    (h1 : start < text.length) (h2 : text.length ≤ start + cs) :
    chunkLoop text cs start = [pyStrip (text.drop start)] := by
  rw [chunkLoop]
  rw [dif_pos h1, if_pos h2]

theorem chunkLoop_mid (text : List Char) (cs start : Nat)
    (h1 : start < text.length) (h2 : start + cs < text.length) :
    chunkLoop text cs start =
      if pyStrip (pySlice text start (adjustEnd text cs start)) = []
      then chunkLoop text cs (max (start + 1) (adjustEnd text cs start))
      else pyStrip (pySlice text start (adjustEnd text cs start)) ::
        chunkLoop text cs (max (start + 1) (adjustEnd text cs start)) := by
  rw [chunkLoop]
  rw [dif_pos h1, if_neg (by omega)]

theorem pyStrip_split (l : List Char) :
    ∃ a b, a.all pyIsSpace = true ∧ b.all pyIsSpace = true ∧ a ++ pyStrip l ++ b = l := by
  refine ⟨l.takeWhile pyIsSpace,
    ((l.dropWhile pyIsSpace).reverse.takeWhile pyIsSpace).reverse, ?_, ?_, ?_⟩
  · exact List.all_eq_true.mpr fun x hx => List.mem_takeWhile_imp hx
  · refine List.all_eq_true.mpr fun x hx => ?_
    exact List.mem_takeWhile_imp (List.mem_reverse.mp hx)
  · have h1 : l.takeWhile pyIsSpace ++ l.dropWhile pyIsSpace = l :=
      List.takeWhile_append_dropWhile pyIsSpace l
    have h2 : (l.dropWhile pyIsSpace).reverse.takeWhile pyIsSpace ++
        (l.dropWhile pyIsSpace).reverse.dropWhile pyIsSpace = (l.dropWhile pyIsSpace).reverse :=
      List.takeWhile_append_dropWhile pyIsSpace (l.dropWhile pyIsSpace).reverse
    have h3 : l.dropWhile pyIsSpace =
        pyStrip l ++ ((l.dropWhile pyIsSpace).reverse.takeWhile pyIsSpace).reverse := by
      conv_lhs => rw [← List.reverse_reverse (l.dropWhile pyIsSpace), ← h2]
      rw [List.reverse_append]
      rfl
    calc l.takeWhile pyIsSpace ++ pyStrip l ++
          ((l.dropWhile pyIsSpace).reverse.takeWhile pyIsSpace).reverse
        = l.takeWhile pyIsSpace ++ (pyStrip l ++
          ((l.dropWhile pyIsSpace).reverse.takeWhile pyIsSpace).reverse) := by
          rw [List.append_assoc]
      _ = l.takeWhile pyIsSpace ++ l.dropWhile pyIsSpace := by rw [← h3]
      _ = l := h1

theorem pyStrip_length_le (l : List Char) : (pyStrip l).length ≤ l.length := by
  rcases pyStrip_split l with ⟨a, b, _, _, h⟩
  have := congrArg List.length h
  simp [List.length_append] at this
  omega

theorem pySlice_drop (l : List Char) (a b : Nat) (hab : a ≤ b) (hb : b ≤ l.length) :
    pySlice l a b ++ l.drop b = l.drop a := by
  have h1 : l.take b ++ l.drop b = l := List.take_append_drop b l
  have h2 : l.drop a = (l.take b ++ l.drop b).drop a := by rw [h1]
  rw [h2, List.drop_append_eq_append_drop]
  have h3 : (l.take b).length = b := by
    simp [List.length_take]
    omega
  rw [h3]
  have h4 : a - b = 0 := by omega
  rw [h4]
  rfl

theorem weave_absorb (u w : List Char) (ws cs : List (List Char)) :
    weave ((u ++ w) :: ws) cs = u ++ weave (w :: ws) cs := by
  cases cs <;> simp [weave, List.append_assoc]

theorem chunkLoop_reconstruct (text : List Char) (cs : Nat) (hcs : 0 < cs) :
    ∀ n start, text.length ≤ start + n →
    ∃ ws, ws.length = (chunkLoop text cs start).length + 1 ∧
      (∀ w ∈ ws, w.all pyIsSpace = true) ∧
      weave ws (chunkLoop text cs start) = text.drop start := by
  intro n
  induction n with
  | zero =>
    intro start hn
    rw [chunkLoop_done text cs start (by omega)]
    refine ⟨[[]], by simp [weave], by simp, ?_⟩
    show weave [[]] [] = text.drop start
    have hd : text.drop start = [] := List.drop_eq_nil_of_le (by omega)
    rw [hd]
    rfl
  | succ n ih =>
    intro start hn
    by_cases hs : start < text.length
    · by_cases ht : text.length ≤ start + cs
      · rw [chunkLoop_tail text cs start hs ht]
        rcases pyStrip_split (text.drop start) with ⟨a, b, ha, hb, heq⟩
        refine ⟨[a, b], by simp, ?_, ?_⟩
        · intro w hw
          simp only [List.mem_cons, List.not_mem_nil, or_false] at hw
          rcases hw with rfl | rfl
          · exact ha
          · exact hb
        · have e1 : weave [a, b] [pyStrip (text.drop start)] =
              a ++ pyStrip (text.drop start) ++ b := by
            simp [weave, List.append_assoc]
          rw [e1, heq]
      · push_neg at ht
        have he1 : start + 1 ≤ adjustEnd text cs start := adjustEnd_ge text cs start hcs
        have he2 : adjustEnd text cs start ≤ start + cs := adjustEnd_le text cs start
        have hmax : max (start + 1) (adjustEnd text cs start) = adjustEnd text cs start :=
          Nat.max_eq_right he1
        rw [chunkLoop_mid text cs start hs (by omega), hmax]
        rcases ih (adjustEnd text cs start) (by omega) with ⟨ws', hlen', hall', hwv'⟩
        rcases ws' with _ | ⟨w0, ws''⟩
        · simp at hlen'
        rcases pyStrip_split (pySlice text start (adjustEnd text cs start)) with
          ⟨a, b, ha, hb, heq⟩
        have hdrop : pySlice text start (adjustEnd text cs start) ++
            text.drop (adjustEnd text cs start) = text.drop start :=
          pySlice_drop text start (adjustEnd text cs start) (by omega) (by omega)
        by_cases hc : pyStrip (pySlice text start (adjustEnd text cs start)) = []
        · rw [if_pos hc]
          refine ⟨(a ++ (b ++ w0)) :: ws'', ?_, ?_, ?_⟩
          · simpa using hlen'
          · intro w hw
            simp only [List.mem_cons] at hw
            rcases hw with rfl | hw
            · simp only [List.all_append, Bool.and_eq_true]
              exact ⟨ha, hb, hall' w0 (by simp)⟩
            · exact hall' w (by simp [hw])
          · rw [weave_absorb a (b ++ w0), weave_absorb b w0, hwv', ← hdrop, ← heq, hc]
            simp [List.append_assoc]
        · rw [if_neg hc]
          refine ⟨a :: (b ++ w0) :: ws'', ?_, ?_, ?_⟩
          · simpa using hlen'
          · intro w hw
            simp only [List.mem_cons] at hw
            rcases hw with rfl | rfl | hw
            · exact ha
            · simp only [List.all_append, Bool.and_eq_true]
              exact ⟨hb, hall' w0 (by simp)⟩
            · exact hall' w (by simp [hw])
          · show a ++ pyStrip (pySlice text start (adjustEnd text cs start)) ++
              weave ((b ++ w0) :: ws'') (chunkLoop text cs (adjustEnd text cs start)) =
              text.drop start
            rw [weave_absorb b w0, hwv']
            conv_rhs => rw [← hdrop, ← heq]
            simp [List.append_assoc]
    · rw [chunkLoop_done text cs start (by omega)]
      refine ⟨[[]], by simp [weave], by simp, ?_⟩
      show weave [[]] [] = text.drop start
      have hd : text.drop start = [] := List.drop_eq_nil_of_le (by omega)
      rw [hd]
      rfl

theorem isPrefixOfCL_replicate (p : Char) (ps : List Char) (c : Char) (m : Nat) (h : p ≠ c) :
    isPrefixOfCL (p :: ps) (List.replicate m c) = false := by
  cases m with
  | zero => rfl
  | succ m =>
    rw [List.replicate_succ]
    simp [isPrefixOfCL, h]

theorem rfindDown_replicate (p : Char) (ps : List Char) (c : Char) (m : Nat) (h : p ≠ c) :
    ∀ i, rfindDown (p :: ps) (List.replicate m c) i = none := by
  intro i
  induction i with
  | zero =>
    simp [rfindDown, isPrefixOfCL_replicate p ps c m h]
  | succ i ih =>
    rw [rfindDown, List.drop_replicate, isPrefixOfCL_replicate p ps c _ h]
    simpa using ih

theorem pyRFind_replicate (c : Char) (m : Nat) (p : Char) (ps : List Char) (h : p ≠ c) :
    pyRFind (List.replicate m c) (p :: ps) = none := by
  unfold pyRFind
  exact rfindDown_replicate p ps c m h _

theorem pyRFind_fence_replicate (m : Nat) : pyRFind (List.replicate m 'A') fenceL = none := by
  rw [show fenceL = tick :: [tick, tick] from rfl]
  exact pyRFind_replicate 'A' m tick [tick, tick] (by decide)

theorem pyRFind_blank_replicate (m : Nat) : pyRFind (List.replicate m 'A') blankL = none := by
  rw [show blankL = '\n' :: ['\n'] from rfl]
  exact pyRFind_replicate 'A' m '\n' ['\n'] (by decide)

theorem pyRFind_period_replicate (m : Nat) : pyRFind (List.replicate m 'A') periodL = none := by
  rw [show periodL = '.' :: [' '] from rfl]
  exact pyRFind_replicate 'A' m '.' [' '] (by decide)

theorem pySlice_replicate (c : Char) (n a b : Nat) :
    pySlice (List.replicate n c) a b = List.replicate (min b n - a) c := by
  simp [pySlice, List.take_replicate, List.drop_replicate]

theorem adjustRest_replicate (m cs start : Nat) :
    adjustRest (List.replicate m 'A') cs start = start + cs := by
  unfold adjustRest
  rw [pyRFind_blank_replicate, pyRFind_period_replicate]

theorem adjustFence_replicate (m cs start : Nat) :
    adjustFence (List.replicate m 'A') cs start = start + cs := by
  unfold adjustFence
  rw [pyRFind_fence_replicate]
  exact adjustRest_replicate m cs start

theorem adjustEnd_replicate (n cs start : Nat) :
    adjustEnd (List.replicate n 'A') cs start = start + cs := by
  unfold adjustEnd
  rw [pySlice_replicate]
  exact adjustFence_replicate _ cs start

theorem dropWhile_replicate_no (p : Char → Bool) (c : Char) (m : Nat) (h : p c = false) :
    List.dropWhile p (List.replicate m c) = List.replicate m c := by
  cases m with
  | zero => rfl
  | succ m =>
    rw [List.replicate_succ]
    simp [List.dropWhile_cons, h]

theorem pyStrip_replicate (c : Char) (m : Nat) (h : pyIsSpace c = false) :
    pyStrip (List.replicate m c) = List.replicate m c := by
  unfold pyStrip
  rw [dropWhile_replicate_no _ _ _ h, List.reverse_replicate,
    dropWhile_replicate_no _ _ _ h, List.reverse_replicate]

theorem chunkLoopF_eq (text : List Char) (cs : Nat) :
    ∀ fuel start, text.length - start < fuel →
    chunkLoopF fuel text cs start = some (chunkLoop text cs start) := by
  intro fuel
  induction fuel with
  | zero => intro start h; omega
  | succ fuel ih =>
    intro start h
    by_cases hs : start < text.length
    · by_cases ht : text.length ≤ start + cs
      · rw [chunkLoop_tail text cs start hs ht]
        simp [chunkLoopF, hs, ht]
      · push_neg at ht
        rw [chunkLoop_mid text cs start hs (by omega)]
        have hmx : start + 1 ≤ max (start + 1) (adjustEnd text cs start) := le_max_left _ _
        have hr := ih (max (start + 1) (adjustEnd text cs start)) (by omega)
        simp only [chunkLoopF, if_pos hs, if_neg (by omega : ¬ text.length ≤ start + cs)]
        rw [hr]
    · rw [chunkLoop_done text cs start (by omega)]
      simp [chunkLoopF, hs]

theorem chunkLoop_length_le (text : List Char) (cs : Nat) :
    ∀ n start, text.length ≤ start + n →
    ∀ c ∈ chunkLoop text cs start, c.length ≤ cs := by
  intro n
  induction n with
  | zero =>
    intro start hn c hc
    rw [chunkLoop_done text cs start (by omega)] at hc
    simp at hc
  | succ n ih =>
    intro start hn c hc
    by_cases hs : start < text.length
    · by_cases ht : text.length ≤ start + cs
      · rw [chunkLoop_tail text cs start hs ht] at hc
        simp at hc
        subst hc
        have h1 := pyStrip_length_le (text.drop start)
        simp [List.length_drop] at h1
        omega
      · push_neg at ht
        rw [chunkLoop_mid text cs start hs (by omega)] at hc
        have he2 := adjustEnd_le text cs start
        have hmx : start + 1 ≤ max (start + 1) (adjustEnd text cs start) := le_max_left _ _
        split at hc
        · exact ih _ (by omega) c hc
        · rcases List.mem_cons.mp hc with rfl | hc
          · have h1 := pyStrip_length_le (pySlice text start (adjustEnd text cs start))
            have h2 := pySlice_length_le text start (adjustEnd text cs start)
            omega
          · exact ih _ (by omega) c hc
    · rw [chunkLoop_done text cs start (by omega)] at hc
      simp at hc

theorem chunkLoop_dropLast_ne (text : List Char) (cs : Nat) :
    ∀ n start, text.length ≤ start + n →
    ∀ c ∈ (chunkLoop text cs start).dropLast, c ≠ [] := by
  intro n
  induction n with
  | zero =>
    intro start hn c hc
    rw [chunkLoop_done text cs start (by omega)] at hc
    simp at hc
  | succ n ih =>
    intro start hn c hc
    by_cases hs : start < text.length
    · by_cases ht : text.length ≤ start + cs
      · rw [chunkLoop_tail text cs start hs ht] at hc
        simp at hc
      · push_neg at ht
        rw [chunkLoop_mid text cs start hs (by omega)] at hc
        have hmx : start + 1 ≤ max (start + 1) (adjustEnd text cs start) := le_max_left _ _
        split at hc
        · exact ih _ (by omega) c hc
        case _ hne =>
          rcases hrest : chunkLoop text cs (max (start + 1) (adjustEnd text cs start)) with
            _ | ⟨r, rs⟩
          · rw [hrest] at hc
            simp at hc
          · rw [hrest] at hc
            have hdl : (pyStrip (pySlice text start (adjustEnd text cs start)) :: r :: rs).dropLast
                = pyStrip (pySlice text start (adjustEnd text cs start)) :: (r :: rs).dropLast := by
              simp [List.dropLast]
            rw [hdl] at hc
            rcases List.mem_cons.mp hc with rfl | hc
            · exact hne
            · have := ih _ (by omega : text.length ≤ max (start + 1) (adjustEnd text cs start) + n)
              rw [hrest] at this
              exact this c hc
    · rw [chunkLoop_done text cs start (by omega)] at hc
      simp at hc

theorem process_chunk_good (ts : LLMResult) (emb : EmbResult) (now path chunk : List Char)
    (n : Nat) (url : List Char) (h : goodTS ts = true) :
    ∃ pc, process_chunk ts emb now path chunk n url = Except.ok pc ∧ pc.chunk_number = n := by
  cases ts with
  | fail => exact ⟨_, rfl, rfl⟩
  | ok fields =>
    simp only [goodTS, Bool.and_eq_true, Option.isSome_iff_exists] at h
    rcases h with ⟨⟨t, ht⟩, ⟨s, hs⟩⟩
    refine ⟨{ url := url, chunk_number := n, title := t, summary := s,
              content := chunk,
              metadata := { source := sourceTag, chunk_size := chunk.length,
                            crawled_at := now, url_path := path },
              embedding := get_embedding emb chunk }, ?_, rfl⟩
    unfold process_chunk
    simp [get_title_and_summary, ht, hs]

theorem gatherExcept_map (tsO : Nat → LLMResult) (embO : Nat → EmbResult)
    (now path url : List Char) (h : ∀ i, goodTS (tsO i) = true) :
    ∀ l : List (Nat × List Char),
    ∃ pcs, gatherExcept (l.map
        (fun p => process_chunk (tsO p.1) (embO p.1) now path p.2 p.1 url)) = .ok pcs ∧
      pcs.map (fun pc => pc.chunk_number) = l.map (fun p => p.1) := by
  intro l
  induction l with
  | nil => exact ⟨[], rfl, rfl⟩
  | cons p l ih =>
    rcases ih with ⟨pcs, hg, hm⟩
    rcases process_chunk_good (tsO p.1) (embO p.1) now path p.2 p.1 url (h p.1) with
      ⟨pc, hpc, hn⟩
    refine ⟨pc :: pcs, ?_, ?_⟩
    · rw [List.map_cons, hpc]
      show (match gatherExcept (l.map
        (fun p => process_chunk (tsO p.1) (embO p.1) now path p.2 p.1 url)) with
        | .error e => .error e
        | .ok pcs => .ok (pc :: pcs)) = Except.ok (pc :: pcs)
      rw [hg]
    · simp [hm, hn]

theorem pyEnumFrom_map_fst : ∀ (l : List (List Char)) (i : Nat),
    (pyEnumFrom i l).map (fun p => p.1) = List.range' i l.length := by
  intro l
  induction l with
  | nil => intro i; rfl
  | cons c rest ih =>
    intro i
    simp [pyEnumFrom, List.range', ih]

theorem pyEnumFrom_length : ∀ (l : List (List Char)) (i : Nat),
    (pyEnumFrom i l).length = l.length := by
  intro l
  induction l with
  | nil => intro i; rfl
  | cons c rest ih => intro i; simp [pyEnumFrom, ih]

theorem chunkText_ab : chunkText ['a', 'b'] 5000 = [['a', 'b']] := by
  rw [chunkText, chunkLoop_tail _ _ _ (by decide) (by decide)]
  decide

theorem chunkText_single_space : chunkText [' '] 5000 = [[]] := by
  rw [chunkText, chunkLoop_tail _ _ _ (by decide) (by decide)]
  decide

theorem chunkText_a_space : chunkText ['a', ' '] 1 = [['a'], []] := by
  rw [chunkText, chunkLoop_mid _ _ _ (by decide) (by decide)]
  have hadj : adjustEnd ['a', ' '] 1 0 = 1 := by decide
  rw [hadj]
  have hps : pyStrip (pySlice ['a', ' '] 0 1) = ['a'] := by decide
  rw [hps, if_neg (by decide : ¬ (['a'] : List Char) = [])]
  have hmx : max (0 + 1) 1 = 1 := by decide
  rw [hmx, chunkLoop_tail _ _ _ (by decide) (by decide)]
  decide

/-- Claim C1: for every input text and every maxChunkSize > 0, the chunks of
`chunk_text` reconstruct the input exactly and in order: there are
whitespace-only strings `w0, ..., wN` with
`text = w0 ++ c0 ++ w1 ++ ... ++ c(N-1) ++ wN` for the returned chunks
`c0, ..., c(N-1)`. -/
theorem chunk_text_reconstructs_input (text : List Char) (cs : Nat) (hcs : 0 < cs) :
    ∃ ws : List (List Char), ws.length = (chunkText text cs).length + 1 ∧
      (∀ w ∈ ws, w.all pyIsSpace = true) ∧ weave ws (chunkText text cs) = text := by
  have h := chunkLoop_reconstruct text cs hcs text.length 0 (by omega)
  simpa [chunkText] using h

/-- Witness for C1 at `text = "hi"`, `maxChunkSize = 5`. -/
theorem chunk_text_reconstructs_input_witness :
    0 < 5 ∧ ∃ ws : List (List Char), ws.length = (chunkText ['h', 'i'] 5).length + 1 ∧
      (∀ w ∈ ws, w.all pyIsSpace = true) ∧ weave ws (chunkText ['h', 'i'] 5) = ['h', 'i'] :=
  ⟨by decide, chunk_text_reconstructs_input ['h', 'i'] 5 (by decide)⟩

/-- Claim C3 counterexample: on the whitespace-only text `" "` (any positive
maxChunkSize, here 5000) `chunk_text` returns the one-element list containing
the empty string — line 45 appends the stripped final remainder without the
emptiness check, so the claim that no returned element is empty fails. -/
theorem chunk_text_emits_empty_final_chunk :
    chunkText [' '] 5000 = [[]] ∧ [] ∈ chunkText [' '] 5000 := by
  refine ⟨chunkText_single_space, ?_⟩
  rw [chunkText_single_space]
  exact List.mem_singleton.mpr rfl

/-- Claim C3 (amended): every chunk other than the final one is non-empty
(the guard at line 62 drops empty mid-loop chunks); only the final remainder
chunk, appended at line 45 without that guard, may be the empty string. -/
theorem chunk_text_nonfinal_chunks_nonempty (text : List Char) (cs : Nat) :
    ∀ c ∈ (chunkText text cs).dropLast, c ≠ [] := by
  intro c hc
  exact chunkLoop_dropLast_ne text cs text.length 0 (by omega) c hc

/-- Witness for the amended C3 at `text = "a "`, `maxChunkSize = 1`. -/
theorem chunk_text_nonfinal_chunks_nonempty_witness :
    ['a'] ∈ (chunkText ['a', ' '] 1).dropLast ∧ ['a'] ≠ ([] : List Char) := by
  have hm : ['a'] ∈ (chunkText ['a', ' '] 1).dropLast := by
    rw [chunkText_a_space]
    decide
  exact ⟨hm, chunk_text_nonfinal_chunks_nonempty ['a', ' '] 1 ['a'] hm⟩

/-- Claim C9: `chunk_text` terminates: `start` strictly increases every
iteration (it advances to `max (start+1) adjustedEnd`), so the while loop of
`chunk_text` exits within `text.length + 1` iterations, computing exactly the
total function `chunkText`. -/
theorem chunk_text_terminates (text : List Char) (cs : Nat) :
    (∀ start, start < max (start + 1) (adjustEnd text cs start)) ∧
    chunkLoopF (text.length + 1) text cs 0 = some (chunkText text cs) := by
  constructor
  · intro start
    have := le_max_left (start + 1) (adjustEnd text cs start)
    omega
  · rw [chunkText]
    exact chunkLoopF_eq text cs (text.length + 1) 0 (by omega)

/-- Claim C10: every chunk returned by `chunk_text` has length at most
maxChunkSize, the final remainder chunk included. -/
theorem chunk_text_length_le_max (text : List Char) (cs : Nat) (_hcs : 0 < cs) :
    ∀ c ∈ chunkText text cs, c.length ≤ cs := by
  intro c hc
  exact chunkLoop_length_le text cs text.length 0 (by omega) c hc

/-- Witness for C10 at `text = "ab"`, `maxChunkSize = 5000`. -/
theorem chunk_text_length_le_max_witness :
    (0 < 5000 ∧ ['a', 'b'] ∈ chunkText ['a', 'b'] 5000) ∧
      (['a', 'b'] : List Char).length ≤ 5000 := by
  have hm : ['a', 'b'] ∈ chunkText ['a', 'b'] 5000 := by
    rw [chunkText_ab]
    exact List.mem_singleton.mpr rfl
  exact ⟨⟨by decide, hm⟩, chunk_text_length_le_max ['a', 'b'] 5000 (by decide) ['a', 'b'] hm⟩

/-- Claim C8: `chunk_text` on `"A" * 12000` with the default maxChunkSize 5000
returns exactly three chunks, each cut at the raw window boundary, of lengths
5000, 5000 and 2000. -/
theorem chunk_text_A12000 :
    chunkText (List.replicate 12000 'A') 5000 =
      [List.replicate 5000 'A', List.replicate 5000 'A', List.replicate 2000 'A'] ∧
    (chunkText (List.replicate 12000 'A') 5000).map List.length = [5000, 5000, 2000] := by
  have hlen : (List.replicate 12000 'A').length = 12000 := by
    rw [List.length_replicate]
  have hne : (List.replicate 5000 'A' : List Char) ≠ [] := by
    intro h
    have h5 := congrArg List.length h
    rw [List.length_replicate] at h5
    exact absurd h5 (by decide)
  have hmain : chunkText (List.replicate 12000 'A') 5000 =
      [List.replicate 5000 'A', List.replicate 5000 'A', List.replicate 2000 'A'] := by
    rw [chunkText]
    rw [chunkLoop_mid _ _ _ (by rw [hlen]; decide) (by rw [hlen]; decide)]
    rw [adjustEnd_replicate]
    have hz : (0 : Nat) + 5000 = 5000 := by norm_num
    rw [hz]
    have hmx1 : max (0 + 1) 5000 = 5000 := by omega
    rw [hmx1]
    have h1 : pySlice (List.replicate 12000 'A') 0 5000 = List.replicate 5000 'A' := by
      rw [pySlice_replicate]
      have hm : min 5000 12000 - 0 = 5000 := by norm_num
      rw [hm]
    rw [h1, pyStrip_replicate 'A' 5000 (by decide), if_neg hne]
    rw [chunkLoop_mid _ _ _ (by rw [hlen]; decide) (by rw [hlen]; decide)]
    rw [adjustEnd_replicate]
    have hz2 : (5000 : Nat) + 5000 = 10000 := by norm_num
    rw [hz2]
    have hmx2 : max (5000 + 1) 10000 = 10000 := by omega
    rw [hmx2]
    have h2 : pySlice (List.replicate 12000 'A') 5000 10000 = List.replicate 5000 'A' := by
      rw [pySlice_replicate]
      have hm : min 10000 12000 - 5000 = 5000 := by norm_num
      rw [hm]
    rw [h2, pyStrip_replicate 'A' 5000 (by decide), if_neg hne]
    rw [chunkLoop_tail _ _ _ (by rw [hlen]; decide) (by rw [hlen]; decide)]
    have hd : (List.replicate 12000 'A').drop 10000 = List.replicate 2000 'A' := by
      rw [List.drop_replicate]
    rw [hd, pyStrip_replicate 'A' 2000 (by decide)]
  refine ⟨hmain, ?_⟩
  rw [hmain]
  simp only [List.map_cons, List.map_nil, List.length_replicate]

/-- Claim C6: with a provider that always fails, `process_chunk` returns the
sentinel title `"Error processing title"`, the sentinel summary
`"Error processing summary"` and the 1536-dimensional zero vector, without
raising. -/
theorem process_chunk_all_fail_sentinels (now path chunk : List Char) (n : Nat)
    (url : List Char) :
    process_chunk LLMResult.fail EmbResult.fail now path chunk n url =
      Except.ok { url := url, chunk_number := n, title := sentinelTitle,
                  summary := sentinelSummary, content := chunk,
                  metadata := { source := sourceTag, chunk_size := chunk.length,
                                crawled_at := now, url_path := path },
                  embedding := List.replicate 1536 0 } := rfl

/-- Claim C2 counterexample: a provider call that succeeds with the
well-formed JSON object `{}` (no `title` key) makes `process_chunk` raise a
`KeyError` to its caller instead of returning a `ProcessedChunk`. -/
theorem process_chunk_missing_key_raises :
    process_chunk (LLMResult.ok []) EmbResult.fail [] [] ['a'] 0 ['u'] =
      Except.error PyError.keyError := rfl

/-- Claim C2 (amended): `process_chunk` returns a `ProcessedChunk` without
raising for every provider behaviour whose successful title/summary responses
contain both the `title` and the `summary` key (failures substitute the
sentinels); a successful response missing either key raises `KeyError`. -/
theorem process_chunk_no_raise_with_keys (ts : LLMResult) (emb : EmbResult)
    (now path chunk : List Char) (n : Nat) (url : List Char) (h : goodTS ts = true) :
    ∃ pc, process_chunk ts emb now path chunk n url = Except.ok pc := by
  rcases process_chunk_good ts emb now path chunk n url h with ⟨pc, hpc, -⟩
  exact ⟨pc, hpc⟩

/-- Witness for the amended C2 at a failing provider. -/
theorem process_chunk_no_raise_with_keys_witness :
    goodTS LLMResult.fail = true ∧
    ∃ pc, process_chunk LLMResult.fail EmbResult.fail [] [] ['a'] 0 ['u'] = Except.ok pc :=
  ⟨by decide, process_chunk_no_raise_with_keys LLMResult.fail EmbResult.fail [] [] ['a'] 0
    ['u'] (by decide)⟩

/-- Claim C4 counterexample: in the first 10-character window of `text15`
(= `a\n\nbcd. efghijk`, maxChunkSize 10) there is no code fence, the only
paragraph break sits at index 1 (not past 30% of 10), and a sentence end sits
at index 6 (past 30%) — yet the cut is the raw boundary 10, not `0 + 6 + 1`
as the claim demands: the `elif` at line 52 consumes the case and the `'. '`
rule is never reached. -/
theorem sentence_rule_blocked_by_early_blank :
    pyRFind (pySlice text15 0 (0 + 10)) fenceL = none ∧
    pyRFind (pySlice text15 0 (0 + 10)) blankL = some 1 ∧ ¬ 3 * 10 < 10 * 1 ∧
    pyRFind (pySlice text15 0 (0 + 10)) periodL = some 6 ∧ 3 * 10 < 10 * 6 ∧
    adjustEnd text15 10 0 = 10 ∧ adjustEnd text15 10 0 ≠ 0 + 6 + 1 := by decide

/-- Claim C4 (amended): when no code fence passes the 30% test and the window
contains no blank-line break at all, but does contain a sentence-ending
`". "` whose last occurrence lies strictly past 30% of maxChunkSize, the cut
is made just after that occurrence; a blank-line break anywhere in the window
(even one failing the 30% test) instead sends the cut to the raw boundary. -/
theorem sentence_rule_cut_when_no_blank (text : List Char) (cs start lp : Nat)
    (hFence : pyRFind (pySlice text start (start + cs)) fenceL = none ∨
      ∃ cb, pyRFind (pySlice text start (start + cs)) fenceL = some cb ∧ ¬ 3 * cs < 10 * cb)
    (hBlank : pyRFind (pySlice text start (start + cs)) blankL = none)
    (hPer : pyRFind (pySlice text start (start + cs)) periodL = some lp)
    (h30 : 3 * cs < 10 * lp) :
    adjustEnd text cs start = start + lp + 1 := by
  unfold adjustEnd adjustFence adjustRest
  rcases hFence with hf | ⟨cb, hcb, hle⟩
  · rw [hf, hBlank, hPer]
    show (if 3 * cs < 10 * lp then start + lp + 1 else start + cs) = start + lp + 1
    rw [if_pos h30]
  · rw [hcb, hBlank, hPer]
    show (if 3 * cs < 10 * cb then start + cb
      else if 3 * cs < 10 * lp then start + lp + 1 else start + cs) = start + lp + 1
    rw [if_neg hle, if_pos h30]

/-- Witness for the amended C4 at `textHello`, maxChunkSize 10. -/
theorem sentence_rule_cut_when_no_blank_witness :
    (pyRFind (pySlice textHello 0 (0 + 10)) fenceL = none ∨
      ∃ cb, pyRFind (pySlice textHello 0 (0 + 10)) fenceL = some cb ∧ ¬ 3 * 10 < 10 * cb) ∧
    pyRFind (pySlice textHello 0 (0 + 10)) blankL = none ∧
    pyRFind (pySlice textHello 0 (0 + 10)) periodL = some 5 ∧ 3 * 10 < 10 * 5 ∧
    adjustEnd textHello 10 0 = 0 + 5 + 1 :=
  ⟨Or.inl (by decide), by decide, by decide, by decide,
    sentence_rule_cut_when_no_blank textHello 10 0 5 (Or.inl (by decide))
      (by decide) (by decide) (by decide)⟩

/-- Claim C5 counterexample: the document `"ab"` yields N = 1 chunk, but with
a provider whose successful title/summary response is the JSON object `{}`
the enrichment task raises `KeyError`, `asyncio.gather` re-raises it, and
`insert_chunk` is invoked 0 ≠ N times. -/
theorem pipeline_zero_inserts_on_bad_provider :
    (process_and_store_document badTS (fun _ => EmbResult.fail)
        [] [] ['u'] ['a', 'b']).insertCalls.length
      ≠ (chunkText ['a', 'b'] 5000).length := by
  have h : process_and_store_document badTS (fun _ => EmbResult.fail) [] [] ['u'] ['a', 'b'] =
      { enrichCalls := [(['a', 'b'], 0)], insertCalls := [] } := by
    simp only [process_and_store_document]
    rw [chunkText_ab]
    rfl
  rw [h, chunkText_ab]
  decide

/-- Claim C5 (amended): for every document and every provider behaviour whose
successful title/summary responses carry both required keys,
`process_and_store_document` creates exactly N enrichment tasks and N insert
tasks for a document of N chunks, with chunk numbers exactly `0..N-1` in
order; if some successful response lacks a key, the enrichment phase still
makes N `process_chunk` calls but raises, and `insert_chunk` runs 0 times. -/
theorem pipeline_counts_good_provider (tsO : Nat → LLMResult) (embO : Nat → EmbResult)
    (now path url markdown : List Char) (h : ∀ i, goodTS (tsO i) = true) :
    (process_and_store_document tsO embO now path url markdown).enrichCalls.length
      = (chunkText markdown 5000).length ∧
    (process_and_store_document tsO embO now path url markdown).enrichCalls.map
        (fun q => q.2) = List.range (chunkText markdown 5000).length ∧
    (process_and_store_document tsO embO now path url markdown).insertCalls.length
      = (chunkText markdown 5000).length ∧
    (process_and_store_document tsO embO now path url markdown).insertCalls.map
        (fun pc => pc.chunk_number) = List.range (chunkText markdown 5000).length := by
  obtain ⟨pcs, hg, hm⟩ := gatherExcept_map tsO embO now path url h
    (pyEnumFrom 0 (chunkText markdown 5000))
  have hps : process_and_store_document tsO embO now path url markdown =
      { enrichCalls := (pyEnumFrom 0 (chunkText markdown 5000)).map (fun p => (p.2, p.1)),
        insertCalls := pcs } := by
    simp only [process_and_store_document]
    rw [hg]
  have hfst : (pyEnumFrom 0 (chunkText markdown 5000)).map (fun p => p.1)
      = List.range (chunkText markdown 5000).length := by
    rw [pyEnumFrom_map_fst, List.range_eq_range']
  have hlen : pcs.length = (chunkText markdown 5000).length := by
    have h2 := congrArg List.length hm
    simpa [pyEnumFrom_length] using h2
  refine ⟨?_, ?_, ?_, ?_⟩
  · rw [hps]
    show ((pyEnumFrom 0 (chunkText markdown 5000)).map (fun p => (p.2, p.1))).length = _
    rw [List.length_map, pyEnumFrom_length]
  · rw [hps]
    show ((pyEnumFrom 0 (chunkText markdown 5000)).map (fun p => (p.2, p.1))).map
        (fun q => q.2) = _
    rw [List.map_map]
    exact hfst
  · rw [hps]
    exact hlen
  · rw [hps]
    show pcs.map (fun pc => pc.chunk_number) = _
    rw [hm]
    exact hfst

/-- Witness for the amended C5 at an always-failing provider and the document
`"ab"`. -/
theorem pipeline_counts_good_provider_witness :
    (∀ i : Nat, goodTS ((fun _ : Nat => LLMResult.fail) i) = true) ∧
    (process_and_store_document (fun _ : Nat => LLMResult.fail)
        (fun _ : Nat => EmbResult.fail)
        [] [] ['u'] ['a', 'b']).insertCalls.map (fun pc => pc.chunk_number)
      = List.range (chunkText ['a', 'b'] 5000).length := by
  have hh : ∀ i : Nat, goodTS ((fun _ : Nat => LLMResult.fail) i) = true := fun i => rfl
  exact ⟨hh, (pipeline_counts_good_provider (fun _ : Nat => LLMResult.fail)
    (fun _ : Nat => EmbResult.fail) [] [] ['u'] ['a', 'b'] hh).2.2.2⟩
